import Mathlib

/-!
# Verification of the python-lyrics terminal lyrics animator

A shallow embedding of the repository's core logic:

* `split_and_wrap_text` (base.py, lines 54-80): greedy word-wrap.
* the scheduler tick of `start_lyrics_animation` (base.py, lines 202-241):
  cursor advance, display-index translation, sleep computation.
* `display_content` (base.py, lines 83-151): row-cursor accounting.
* `SpotifyLyricsLoader` (src/loaders/spotify_lyrics.py): `load` and
  `_convert_data`.

Strings are modelled as `List Char`; Python float times as `Rat`
(every time literal occurring in the repository is decimal, hence exact).
-/

namespace Lyrics

/-! ## Python string splitting primitives -/

/-- Python `text.split(sep)` for a single separator character: splits at every
occurrence of `sep`, keeping empty parts (so `"a\n\nb".split('\n')` has three
parts). -/
def splitOnChar (sep : Char) : List Char → List (List Char)
  | [] => [[]]
  | c :: rest =>
    if c = sep then [] :: splitOnChar sep rest
    else
      match splitOnChar sep rest with
      | [] => [[c]]
      | s :: ss => (c :: s) :: ss

/-- Accumulator worker for `splitWs`; `acc` holds the reversed current word. -/
def splitWsAux : List Char → List Char → List (List Char)
  | [], acc => if acc.isEmpty then [] else [acc.reverse]
  | c :: rest, acc =>
    if c.isWhitespace then
      if acc.isEmpty then splitWsAux rest [] else acc.reverse :: splitWsAux rest []
    else
      splitWsAux rest (c :: acc)

/-- Python `part.split()` (no argument): split on runs of whitespace, dropping
empty pieces, so the result is the list of whitespace-free maximal words. -/
def splitWs (l : List Char) : List (List Char) :=
  splitWsAux l []

/-- Python `" ".join(current_line)` on the word-list representation. -/
def joinSp : List (List Char) → List Char
  | [] => []
  | [w] => w
  | w :: ws => w ++ ' ' :: joinSp ws

/-! ## The wrap loop of `split_and_wrap_text` (base.py 60-78)

The inner `for word in words` loop carries `current_line` (a word list) and
`current_line_length`.  Note the increment
`current_line_length += len(word) + (1 if current_line else 0)` is executed
*after* `current_line.append(word)`, so the conditional there always sees a
non-empty list and always adds the extra 1. -/

def wrapWordsAux (maxWidth : Nat) : List (List Char) → List (List Char) → Nat → List (List Char)
  | [], currentLine, _ =>
    -- after the loop: `if current_line: wrapped_lines.append(" ".join(current_line))`
    if currentLine.isEmpty then [] else [joinSp currentLine]
  | word :: words, currentLine, currentLineLength =>
    if currentLineLength + word.length + (if currentLine.isEmpty then 0 else 1) ≤ maxWidth then
      wrapWordsAux maxWidth words (currentLine ++ [word])
        (currentLineLength + word.length +
          (if (currentLine ++ [word]).isEmpty then 0 else 1))
    else
      joinSp currentLine :: wrapWordsAux maxWidth words [word] word.length

/-- One iteration of the outer `for part in parts_by_newline` loop. -/
def wrapSegment (maxWidth : Nat) (part : List Char) : List (List Char) :=
  wrapWordsAux maxWidth (splitWs part) [] 0

/-- `split_and_wrap_text(text, max_width)` (base.py 54-80): split on existing
newlines, wrap each part, and append all resulting lines in order to one list. -/
def split_and_wrap_text (text : List Char) (maxWidth : Nat) : List (List Char) :=
  (splitOnChar '\n' text).flatMap (wrapSegment maxWidth)

/-! ## Spec-side reformulations of the wrap loop

`wrapWordsClaimed` follows the words of the claim about the greedy rule;
`wrapWordsTracked` is the amended bookkeeping that the code actually
implements.  Both are compared with `wrapWordsAux` in the theorems below. -/

/-- The greedy packing rule as the claim reads it: a word is appended exactly
when `current_length + len(word) + (1 if line non-empty else 0) <= max_width`
with `current_length` the length of the current line's rendered content
`" ".join(current_line)`. -/
def wrapWordsClaimed (maxWidth : Nat) : List (List Char) → List (List Char) → List (List Char)
  | [], currentLine => if currentLine.isEmpty then [] else [joinSp currentLine]
  | word :: words, currentLine =>
    if (joinSp currentLine).length + word.length + (if currentLine.isEmpty then 0 else 1)
        ≤ maxWidth then
      wrapWordsClaimed maxWidth words (currentLine ++ [word])
    else
      joinSp currentLine :: wrapWordsClaimed maxWidth words [word]

/-- `split_and_wrap_text` as the claim describes it (content-length counter). -/
def split_and_wrap_claimed (text : List Char) (maxWidth : Nat) : List (List Char) :=
  (splitOnChar '\n' text).flatMap (fun part => wrapWordsClaimed maxWidth (splitWs part) [])

/-- The amended bookkeeping of the code's counter: it equals the current
line's content length, except on a segment's first line (`firstLine = true`,
no flush yet), where it exceeds the content length by one as soon as a word
has been appended — the code evaluates `1 if current_line else 0` in the
increment only after appending the word. -/
def wrapWordsTracked (maxWidth : Nat) :
    List (List Char) → List (List Char) → Bool → List (List Char)
  | [], currentLine, _ => if currentLine.isEmpty then [] else [joinSp currentLine]
  | word :: words, currentLine, firstLine =>
    if (joinSp currentLine).length + (if firstLine ∧ ¬ currentLine.isEmpty then 1 else 0)
        + word.length + (if currentLine.isEmpty then 0 else 1) ≤ maxWidth then
      wrapWordsTracked maxWidth words (currentLine ++ [word]) firstLine
    else
      joinSp currentLine :: wrapWordsTracked maxWidth words [word] false

/-! ## The scheduler of `start_lyrics_animation` (base.py 190-241) -/

/-- One entry of `LYRICS_DATA`: a dict with keys `time`, `original` and the
optional `highlight`; `highlight = none` models an absent key.  Times are
Python floats; every literal in the repository is decimal, so `Rat` is
exact. -/
structure TimedLine where
  time : Rat
  original : List Char
  highlight : Option Bool := none
deriving DecidableEq, Repr

/-- The inner `while` of base.py 206-207 run over the entries from the cursor
on (`rest` stands for `LYRICS_DATA[i:]`): advance while the elapsed time has
reached the entry's time. -/
def advanceFrom (elapsed : Rat) : List TimedLine → Nat → Nat
  | [], i => i
  | e :: rest, i => if elapsed ≥ e.time then advanceFrom elapsed rest (i + 1) else i

/-- One tick's cursor advance (base.py 206-207), starting from cursor `i`. -/
def schedulerTick (lyrics : List TimedLine) (elapsed : Rat) (i : Nat) : Nat :=
  advanceFrom elapsed (lyrics.drop i) i

/-- The number of entries whose time is `≤ elapsed`. -/
def countReached (lyrics : List TimedLine) (elapsed : Rat) : Nat :=
  lyrics.countP (fun e => e.time ≤ elapsed)

/-- The three-entry example sequence used by the spec's test properties:
entry times `[0.0, 4.5, 9.0]` (4.5 = `mkRat 9 2`). -/
def exampleLyrics : List TimedLine :=
  [⟨0, [], none⟩, ⟨mkRat 9 2, [], none⟩, ⟨9, [], none⟩]

/-- The truthiness test `LYRICS_DATA and LYRICS_DATA[0]["time"] == 0.0`
(base.py 214). -/
def firstTimeZero : List TimedLine → Bool
  | [] => false
  | e :: _ => decide (e.time = 0)

/-- The display-index translation (base.py 209-223).  `none` models the
`continue` that skips rendering for the tick; the final `if` is the clamp
`display_index_for_display = len(LYRICS_DATA) - 1`. -/
def displayIndex (lyrics : List TimedLine) (cursor : Nat) : Option Int :=
  let d0 : Int := (cursor : Int) - 1
  let d1 : Int := if d0 < 0 ∧ firstTimeZero lyrics then 0 else d0
  if d1 < 0 then none
  else if (lyrics.length : Int) ≤ d1 then some ((lyrics.length : Int) - 1)
  else some d1

/-- The sleep computation (base.py 231-241): `next_target_time` defaults to
the total duration and is replaced by the time of the entry at the raw cursor
when one remains; the sleep is floored at 0.01 s (= `mkRat 1 100`). -/
def sleepDuration (lyrics : List TimedLine) (cursor : Nat)
    (totalDuration elapsed : Rat) : Rat :=
  let nextTarget0 := totalDuration
  let nextTarget :=
    if h : cursor < lyrics.length then (lyrics.get ⟨cursor, h⟩).time else nextTarget0
  max (mkRat 1 100) (nextTarget - elapsed)

/-! ## The renderer `display_content` (base.py 83-151)

Modelled as a pure computation of the list of painted pieces (row, text) and
the final row cursor; ANSI styling is dealt with separately (`isHighlighted`,
`activeUsesHighlightColor`). -/

/-- `CONTENT_INFO`: title lines and artist lines. -/
structure ContentInfo where
  title_lines : List (List Char)
  artist_lines : List (List Char)
deriving DecidableEq, Repr

/-- The renderer's running state: the shared row cursor
`current_display_row` and the pieces written so far with their rows. -/
structure RenderState where
  row : Nat
  painted : List (Nat × List Char)
deriving DecidableEq, Repr

/-- Emission of one wrapped header piece (base.py 97-103 resp. 105-111): the
write *and* the `current_display_row += 1` both sit inside the
`if current_display_row < TEXT_HEIGHT` guard. -/
def emitHeaderPiece (textHeight : Nat) (st : RenderState) (piece : List Char) : RenderState :=
  if st.row < textHeight then
    { row := st.row + 1, painted := st.painted ++ [(st.row, piece)] }
  else st

/-- Emission of one wrapped lyric piece (base.py 131-147): the write is
guarded by `current_display_row < TEXT_HEIGHT`, the increment is not. -/
def emitLyricPiece (textHeight : Nat) (st : RenderState) (piece : List Char) : RenderState :=
  { row := st.row + 1,
    painted := if st.row < textHeight then st.painted ++ [(st.row, piece)] else st.painted }

/-- Title and artist rendering (base.py 95-111): every line of the header is
wrapped and its pieces emitted in order. -/
def headerPhase (textHeight maxWidth : Nat) (info : ContentInfo) (st : RenderState) :
    RenderState :=
  let st1 := (info.title_lines.flatMap
    (fun l => split_and_wrap_text l maxWidth)).foldl (emitHeaderPiece textHeight) st
  (info.artist_lines.flatMap
    (fun l => split_and_wrap_text l maxWidth)).foldl (emitHeaderPiece textHeight) st1

/-- The blank separator row (base.py 113-114). -/
def blankSeparator (textHeight : Nat) (st : RenderState) : RenderState :=
  if st.row < textHeight then { st with row := st.row + 1 } else st

/-- The window indices of base.py 117-121:
`range(start_lyric_index, start_lyric_index + (TEXT_HEIGHT - row))`.  The
start index is a Python int, hence `Int`. -/
def lyricWindowIndices (textHeight : Nat) (st : RenderState) (startIdx : Int) : List Int :=
  (List.range (textHeight - st.row)).map (fun k => startIdx + (k : Int))

/-- Processing of one window index `i` (base.py 122-149): a valid index wraps
and emits the entry's text, an invalid one only advances the row cursor. -/
def emitLyricLine (textHeight maxWidth : Nat) (lyrics : List TimedLine)
    (st : RenderState) (i : Int) : RenderState :=
  if h : 0 ≤ i ∧ i < (lyrics.length : Int) then
    (split_and_wrap_text (lyrics.get ⟨i.toNat, by omega⟩).original maxWidth).foldl
      (emitLyricPiece textHeight) st
  else
    { st with row := st.row + 1 }

/-- `display_content(current_line_index, lyrics_data, content_info)`
(base.py 83-151), with the layout globals `TEXT_HEIGHT` (= 15 in the repo)
and `TEXT_WIDTH` (= 60) as parameters. -/
def display_content (textHeight maxWidth : Nat) (currentLineIndex : Int)
    (lyrics : List TimedLine) (info : ContentInfo) : RenderState :=
  let st1 := headerPhase textHeight maxWidth info ⟨0, []⟩
  let st2 := blankSeparator textHeight st1
  (lyricWindowIndices textHeight st2 currentLineIndex).foldl
    (emitLyricLine textHeight maxWidth lyrics) st2

/-- `line_data.get("highlight", False)` (base.py 129). -/
def isHighlighted (line : TimedLine) : Bool :=
  line.highlight.getD false

/-- The active-line styling test of base.py 135: the highlight colour is used
when `is_highlighted or line_data.get("time", -1) == 0.0`. -/
def activeUsesHighlightColor (line : TimedLine) : Bool :=
  isHighlighted line || decide (line.time = 0)

/-! ## The loader `SpotifyLyricsLoader` (src/loaders/spotify_lyrics.py) -/

/-- A raw Spotify lyrics entry as `_convert_data` reads it: only the two keys
the loader consults are modelled; `none` is an absent key, for which
`item.get('words', '')` and `item.get('startTimeMs', 0)` supply defaults. -/
structure RawItem where
  startTimeMs : Option (List Char)
  words : Option (List Char)
deriving DecidableEq, Repr

/-- Digit-run parsing used by `pyInt`. -/
def parseDigits (l : List Char) : Option Nat :=
  if l.isEmpty then none
  else if l.all Char.isDigit then
    some (l.foldl (fun acc c => acc * 10 + (c.toNat - '0'.toNat)) 0)
  else none

/-- Python `int(s)` on a string: optional surrounding whitespace, an optional
sign, then digits; anything else raises `ValueError`, modelled as `none`. -/
def pyInt (s : List Char) : Option Int :=
  let t := ((s.dropWhile Char.isWhitespace).reverse.dropWhile Char.isWhitespace).reverse
  match t with
  | '-' :: rest => (parseDigits rest).map (fun n => -(n : Int))
  | '+' :: rest => (parseDigits rest).map (fun n => (n : Int))
  | _ => (parseDigits t).map (fun n => (n : Int))

/-- One iteration of `_convert_data`'s loop (spotify_lyrics.py 100-115).
`none` models an uncaught `ValueError` from `int(...)`; `some none` is the
`continue` that skips an all-whitespace entry.  The division
`start_time_ms / 1000.0` is written `mkRat ms 1000` (the same rational as
`(ms : ℚ) / 1000`) so that the model evaluates inside the kernel. -/
def convertItem (item : RawItem) : Option (Option TimedLine) :=
  let words := item.words.getD []
  if words.all Char.isWhitespace then some none
  else
    match item.startTimeMs with
    | none => some (some ⟨mkRat 0 1000, words, none⟩)
    | some s =>
      match pyInt s with
      | none => none
      | some ms => some (some ⟨mkRat ms 1000, words, none⟩)

/-- `_convert_data` (spotify_lyrics.py 90-115) over the raw entry list.
`none` models an exception escaping the loop. -/
def convertData : List RawItem → Option (List TimedLine)
  | [] => some []
  | item :: rest =>
    match convertItem item with
    | none => none
    | some none => convertData rest
    | some (some e) => (convertData rest).map (fun l => e :: l)

/-- The C8 normalization phrased as the claim states it: drop entries whose
`words` is empty or all-whitespace, map `startTimeMs` milliseconds to seconds
by dividing by 1000 (`mkRat _ 1000`), copy `words` to the text verbatim,
preserve order. -/
def normalizeSpec : List RawItem → List TimedLine
  | [] => []
  | item :: rest =>
    if (item.words.getD []).all Char.isWhitespace then normalizeSpec rest
    else ⟨mkRat ((item.startTimeMs.bind pyInt).getD 0) 1000, item.words.getD [], none⟩ ::
      normalizeSpec rest

/-- The states of the JSON source consumed by `load`
(spotify_lyrics.py 50-88), abstracting the file system and `json.load`. -/
inductive Source
  | missingFile
  | malformedJson
  | legacyArray (raw : List RawItem)
  | extended (title artist : Option (List Char)) (raw : List RawItem)
deriving DecidableEq, Repr

/-- The observable outcome of `load`: its boolean return value, or an
exception escaping to the caller. -/
inductive LoadOutcome
  | returns (b : Bool)
  | raises
deriving DecidableEq, Repr

/-- `load` (spotify_lyrics.py 50-88): `FileNotFoundError` and
`json.JSONDecodeError` are caught and turned into `False`; every other
exception — in particular a `ValueError` raised by `int(...)` inside
`_convert_data` on a malformed entry — is not caught. -/
def load : Source → LoadOutcome
  | .missingFile => .returns false
  | .malformedJson => .returns false
  | .legacyArray raw =>
    match convertData raw with
    | none => .raises
    | some _ => .returns true
  | .extended _ _ raw =>
    match convertData raw with
    | none => .raises
    | some _ => .returns true

/-! ## Lemmas about the splitting primitives -/

theorem splitWsAux_append_ws {c : Char} (hc : c.isWhitespace) (b : List Char) :
    ∀ (a acc : List Char), splitWsAux (a ++ c :: b) acc = splitWsAux a acc ++ splitWs b := by
  intro a
  induction a with
  | nil =>
    intro acc
    by_cases h : acc.isEmpty <;> simp [splitWsAux, hc, h, splitWs]
  | cons x a ih =>
    intro acc
    by_cases hx : x.isWhitespace
    · by_cases h : acc.isEmpty <;> simp [splitWsAux, hx, h, ih]
    · simp [splitWsAux, hx, ih]

theorem splitWs_append_ws {c : Char} (hc : c.isWhitespace) (a b : List Char) :
    splitWs (a ++ c :: b) = splitWs a ++ splitWs b :=
  splitWsAux_append_ws hc b a []

theorem splitWsAux_no_ws :
    ∀ (w acc : List Char), (∀ c ∈ w, ¬ c.isWhitespace) →
      splitWsAux w acc = if (acc.reverse ++ w).isEmpty then [] else [acc.reverse ++ w] := by
  intro w
  induction w with
  | nil =>
    intro acc _
    cases acc <;> simp [splitWsAux]
  | cons c w ih =>
    intro acc h
    have hc : ¬ c.isWhitespace := h c (by simp)
    rw [splitWsAux, if_neg (by simpa using hc), ih (c :: acc) (fun x hx => h x (by simp [hx]))]
    simp [List.append_assoc]

theorem splitWs_word {w : List Char} (hne : w ≠ []) (h : ∀ c ∈ w, ¬ c.isWhitespace) :
    splitWs w = [w] := by
  rw [splitWs, splitWsAux_no_ws w [] h]
  cases w with
  | nil => exact absurd rfl hne
  | cons c w => simp

theorem mem_splitWsAux_words :
    ∀ (l acc : List Char), (∀ c ∈ acc, ¬ c.isWhitespace) →
      ∀ w ∈ splitWsAux l acc, w ≠ [] ∧ ∀ c ∈ w, ¬ c.isWhitespace := by
  intro l
  induction l with
  | nil =>
    intro acc hacc w hw
    cases acc with
    | nil => simp [splitWsAux] at hw
    | cons a as =>
      simp [splitWsAux] at hw
      subst hw
      refine ⟨by simp, ?_⟩
      intro c hc
      apply hacc c
      simp at hc ⊢
      tauto
  | cons x l ih =>
    intro acc hacc w hw
    by_cases hx : x.isWhitespace
    · cases acc with
      | nil =>
        rw [splitWsAux, if_pos (by simpa using hx)] at hw
        simp only [List.isEmpty_nil, if_pos] at hw
        exact ih [] (by simp) w hw
      | cons a as =>
        rw [splitWsAux, if_pos (by simpa using hx)] at hw
        simp only [List.isEmpty_cons, Bool.false_eq_true, if_neg] at hw
        rcases List.mem_cons.mp hw with h | h
        · subst h
          refine ⟨by simp, ?_⟩
          intro c hc
          exact hacc c (List.mem_reverse.mp hc)
        · exact ih [] (by simp) w h
    · rw [splitWsAux, if_neg (by simpa using hx)] at hw
      refine ih (x :: acc) ?_ w hw
      intro c hc
      rcases List.mem_cons.mp hc with h | h
      · subst h; exact hx
      · exact hacc c h

theorem mem_splitWs_words (l : List Char) :
    ∀ w ∈ splitWs l, w ≠ [] ∧ ∀ c ∈ w, ¬ c.isWhitespace :=
  mem_splitWsAux_words l [] (by simp)

theorem joinSp_cons (w x : List Char) (ws : List (List Char)) :
    joinSp (w :: x :: ws) = w ++ ' ' :: joinSp (x :: ws) := rfl

theorem splitWs_joinSp (ls : List (List Char)) :
    splitWs (joinSp ls) = ls.flatMap splitWs := by
  induction ls with
  | nil => rfl
  | cons x ls ih =>
    cases ls with
    | nil => simp [joinSp]
    | cons y rest =>
      rw [joinSp_cons, splitWs_append_ws (by decide), ih]
      simp

theorem flatMap_splitWs_words (ls : List (List Char))
    (h : ∀ w ∈ ls, w ≠ [] ∧ ∀ c ∈ w, ¬ c.isWhitespace) :
    ls.flatMap splitWs = ls := by
  induction ls with
  | nil => rfl
  | cons w ls ih =>
    have hw := h w (by simp)
    rw [List.flatMap_cons, splitWs_word hw.1 hw.2, ih (fun x hx => h x (by simp [hx]))]
    rfl

theorem joinSp_length_append (curr : List (List Char)) (w : List Char) :
    (joinSp (curr ++ [w])).length =
      (joinSp curr).length + w.length + (if curr.isEmpty then 0 else 1) := by
  induction curr with
  | nil => simp [joinSp]
  | cons x curr ih =>
    cases curr with
    | nil =>
      simp [joinSp]
      omega
    | cons y rest =>
      have h2 : joinSp ((x :: y :: rest) ++ [w]) = x ++ ' ' :: joinSp ((y :: rest) ++ [w]) := rfl
      rw [h2, joinSp_cons]
      simp only [List.length_append, List.length_cons, List.isEmpty_cons] at *
      omega

theorem splitOnChar_no_sep {sep : Char} :
    ∀ (l : List Char), (∀ c ∈ l, c ≠ sep) → splitOnChar sep l = [l] := by
  intro l
  induction l with
  | nil =>
    intro _
    rfl
  | cons c l ih =>
    intro h
    have hih := ih (fun x hx => h x (by simp [hx]))
    simp [splitOnChar, hih, h c (by simp)]

/-! ## Lemmas about the wrap loop -/

/-- Word conservation through the inner wrap loop: flat-mapping `splitWs` over
the produced lines recovers `currentLine ++ words`, for any counter value. -/
theorem wrapWordsAux_flatMap_splitWs (maxWidth : Nat) :
    ∀ (ws curr : List (List Char)) (cnt : Nat),
      (∀ w ∈ ws, w ≠ [] ∧ ∀ c ∈ w, ¬ c.isWhitespace) →
      (∀ w ∈ curr, w ≠ [] ∧ ∀ c ∈ w, ¬ c.isWhitespace) →
      (wrapWordsAux maxWidth ws curr cnt).flatMap splitWs = curr ++ ws := by
  intro ws
  induction ws with
  | nil =>
    intro curr cnt _ hcurr
    by_cases h : curr.isEmpty
    · have hc : curr = [] := List.isEmpty_iff.mp h
      simp [wrapWordsAux, h, hc]
    · rw [wrapWordsAux, if_neg h, List.flatMap_cons, List.flatMap_nil, splitWs_joinSp,
        flatMap_splitWs_words curr hcurr]
  | cons w ws ih =>
    intro curr cnt hws hcurr
    have hw := hws w (by simp)
    have hws' : ∀ x ∈ ws, x ≠ [] ∧ ∀ c ∈ x, ¬ c.isWhitespace :=
      fun x hx => hws x (by simp [hx])
    by_cases hle : cnt + w.length + (if curr.isEmpty then 0 else 1) ≤ maxWidth
    · rw [wrapWordsAux, if_pos hle,
        ih _ _ hws' (by
          intro x hx
          rcases List.mem_append.mp hx with h | h
          · exact hcurr x h
          · simp at h
            subst h
            exact hw)]
      simp
    · rw [wrapWordsAux, if_neg hle, List.flatMap_cons, splitWs_joinSp,
        flatMap_splitWs_words curr hcurr,
        ih [w] w.length hws' (by
          intro x hx
          simp at hx
          subst hx
          exact hw)]
      simp

/-- Width invariant of the inner wrap loop: provided the running counter
dominates the current line's rendered length and any already-multi-word
current line fits, every produced line either fits in `maxWidth` or is a
single whitespace-free word. -/
theorem wrapWordsAux_width (maxWidth : Nat) :
    ∀ (ws curr : List (List Char)) (cnt : Nat),
      (∀ w ∈ ws, ∀ c ∈ w, ¬ c.isWhitespace) →
      (∀ w ∈ curr, ∀ c ∈ w, ¬ c.isWhitespace) →
      (joinSp curr).length ≤ cnt →
      (2 ≤ curr.length → (joinSp curr).length ≤ maxWidth) →
      ∀ line ∈ wrapWordsAux maxWidth ws curr cnt,
        line.length ≤ maxWidth ∨ ∀ c ∈ line, ¬ c.isWhitespace := by
  intro ws
  induction ws with
  | nil =>
    intro curr cnt _ hcurr _ hfit line hline
    by_cases h : curr.isEmpty
    · simp [wrapWordsAux, h] at hline
    · rw [wrapWordsAux, if_neg h] at hline
      simp only [List.mem_singleton] at hline
      subst hline
      match curr, h with
      | [x], _ =>
        right
        intro c hc
        exact hcurr x (by simp) c (by simpa [joinSp] using hc)
      | x :: y :: rest, _ =>
        left
        exact hfit (by simp only [List.length_cons]; omega)
  | cons w ws ih =>
    intro curr cnt hws hcurr hcnt hfit line hline
    have hws' : ∀ x ∈ ws, ∀ c ∈ x, ¬ c.isWhitespace := fun x hx => hws x (by simp [hx])
    have hwchars : ∀ c ∈ w, ¬ c.isWhitespace := hws w (by simp)
    by_cases hle : cnt + w.length + (if curr.isEmpty then 0 else 1) ≤ maxWidth
    · rw [wrapWordsAux, if_pos hle] at hline
      refine ih (curr ++ [w]) _ (hws') ?_ ?_ ?_ line hline
      · intro x hx
        rcases List.mem_append.mp hx with h | h
        · exact hcurr x h
        · simp at h
          subst h
          exact hwchars
      · rw [joinSp_length_append]
        by_cases h : curr.isEmpty <;> simp [h] <;> omega
      · intro _
        rw [joinSp_length_append]
        by_cases h : curr.isEmpty
        · have hc : curr = [] := List.isEmpty_iff.mp h
          subst hc
          simp [joinSp] at hle ⊢
          omega
        · simp [h] at hle ⊢
          omega
    · rw [wrapWordsAux, if_neg hle] at hline
      rcases List.mem_cons.mp hline with h | h
      · subst h
        match curr with
        | [] =>
          left
          simp [joinSp]
        | [x] =>
          right
          intro c hc
          exact hcurr x (by simp) c (by simpa [joinSp] using hc)
        | x :: y :: rest =>
          left
          exact hfit (by simp only [List.length_cons]; omega)
      · refine ih [w] w.length hws' ?_ ?_ ?_ line h
        · intro x hx
          simp at hx
          subst hx
          exact hwchars
        · simp [joinSp]
        · simp

/-- The counter invariant: starting from a counter that exceeds the content
length by one exactly on an unflushed (`firstLine`) non-empty line, the code's
loop computes `wrapWordsTracked`. -/
theorem wrapWordsAux_eq_tracked (maxWidth : Nat) :
    ∀ (ws curr : List (List Char)) (cnt : Nat) (firstLine : Bool),
      cnt = (joinSp curr).length + (if firstLine ∧ ¬ curr.isEmpty = true then 1 else 0) →
      (firstLine = false → ¬ curr.isEmpty = true) →
      wrapWordsAux maxWidth ws curr cnt = wrapWordsTracked maxWidth ws curr firstLine := by
  intro ws
  induction ws with
  | nil =>
    intro curr cnt firstLine _ _
    rfl
  | cons w ws ih =>
    intro curr cnt firstLine hcnt hfl
    rw [wrapWordsAux, wrapWordsTracked, ← hcnt]
    by_cases hle : cnt + w.length + (if curr.isEmpty then 0 else 1) ≤ maxWidth
    · rw [if_pos hle, if_pos hle]
      refine ih (curr ++ [w]) _ firstLine ?_ (by simp)
      subst hcnt
      rw [joinSp_length_append]
      cases curr with
      | nil =>
        cases firstLine with
        | false => exact absurd rfl (hfl rfl)
        | true => simp [joinSp]
      | cons x rest =>
        cases firstLine with
        | false => simp
        | true =>
          simp only [List.cons_append, List.isEmpty_cons, Bool.not_false, Bool.true_eq_false,
            not_false_iff, and_true, true_and, if_true, if_false]
          simp
          omega
    · rw [if_neg hle, if_neg hle]
      refine congrArg _ (ih [w] w.length false ?_ (by simp))
      simp [joinSp]

/-- **C3** (amended): the wrap loop appends a word exactly when
`cnt + len(word) + (1 if line non-empty else 0) <= max_width`, where the
counter `cnt` equals the current line's content length for every line begun
by a flush but exceeds it by one on a segment's first line once a word has
been appended (the space allowance in the increment is evaluated after the
append); equivalently, `split_and_wrap_text` computes `wrapWordsTracked`. -/
theorem claim_C3_wrap_rule (text : List Char) (maxWidth : Nat) :
    split_and_wrap_text text maxWidth =
      (splitOnChar '\n' text).flatMap
        (fun part => wrapWordsTracked maxWidth (splitWs part) [] true) := by
  rw [split_and_wrap_text]
  congr 1
  funext part
  exact wrapWordsAux_eq_tracked maxWidth (splitWs part) [] 0 true (by simp [joinSp]) (by simp)

/-- **C3** counterexample: with `current_length` read as the length of the
current line's content, the claimed rule would pack `"ab cd"` onto one line of
width 5, but the code flushes after `"ab"` because its counter is already 3. -/
theorem claim_C3_counterexample :
    split_and_wrap_claimed "ab cd".toList 5 = ["ab cd".toList] ∧
    split_and_wrap_text "ab cd".toList 5 = ["ab".toList, "cd".toList] ∧
    split_and_wrap_text "ab cd".toList 5 ≠ split_and_wrap_claimed "ab cd".toList 5 := by
  decide

/-- **C4** counterexample: wrapping the segment consisting of the single
oversized word `"aaa"` at width 2 yields two output lines — an empty line and
then the word — not exactly one line. -/
theorem claim_C4_counterexample :
    split_and_wrap_text "aaa".toList 2 = [[], "aaa".toList] ∧
    (split_and_wrap_text "aaa".toList 2).length ≠ 1 := by
  decide

/-- **C4** (amended): an oversized word is never split and is emitted alone
on its own line, but when it is a segment's only (first) word the flush of
the empty current line emits one empty line before it, so the segment wraps
to `[[], w]`; and every output line of the wrap either fits in `max_width`
or is a single whitespace-free word. -/
theorem claim_C4_oversized_alone (maxWidth : Nat) (w : List Char) (hne : w ≠ [])
    (hchars : ∀ c ∈ w, ¬ c.isWhitespace) (hover : maxWidth < w.length) :
    split_and_wrap_text w maxWidth = [[], w] ∧
    ∀ (text line : List Char), line ∈ split_and_wrap_text text maxWidth →
      line.length ≤ maxWidth ∨ ∀ c ∈ line, ¬ c.isWhitespace := by
  constructor
  · rw [split_and_wrap_text,
      splitOnChar_no_sep w (fun c hc heq => hchars c hc (by rw [heq]; decide))]
    rw [List.flatMap_cons, List.flatMap_nil, wrapSegment, splitWs_word hne hchars]
    rw [wrapWordsAux, if_neg (by simpa using Nat.not_le.mpr hover), wrapWordsAux]
    simp [joinSp]
  · intro text line hline
    rw [split_and_wrap_text] at hline
    rcases List.mem_flatMap.mp hline with ⟨part, _, hmem⟩
    refine wrapWordsAux_width maxWidth (splitWs part) [] 0
      (fun x hx => ((mem_splitWs_words part) x hx).2) (by simp) (by simp [joinSp])
      (fun h2 => absurd h2 (by simp)) line hmem

/-- Witness for **C4**: the oversized-word part evaluated at `"aaa"`, width 2. -/
theorem claim_C4_oversized_alone_witness :
    split_and_wrap_text "aaa".toList 2 = [[], "aaa".toList] :=
  (claim_C4_oversized_alone 2 "aaa".toList (by decide) (by decide) (by decide)).1

/-- **C5**: re-splitting the space-joined wrap output into words reproduces
exactly the words of the input, segment by segment: no word is dropped,
duplicated or reordered, and no output line mixes words of two
newline-separated segments. -/
theorem claim_C5_words_preserved (text : List Char) (maxWidth : Nat) :
    splitWs (joinSp (split_and_wrap_text text maxWidth)) =
      (splitOnChar '\n' text).flatMap splitWs ∧
    ∀ part ∈ splitOnChar '\n' text,
      (wrapSegment maxWidth part).flatMap splitWs = splitWs part := by
  have hseg : ∀ part : List Char,
      (wrapSegment maxWidth part).flatMap splitWs = splitWs part := by
    intro part
    rw [wrapSegment, wrapWordsAux_flatMap_splitWs maxWidth (splitWs part) [] 0
      (mem_splitWs_words part) (by simp)]
    rfl
  refine ⟨?_, fun part _ => hseg part⟩
  rw [splitWs_joinSp, split_and_wrap_text, List.flatMap_assoc]
  simp only [hseg]

/-! ## Lemmas about the scheduler -/

theorem advanceFrom_ge (elapsed : Rat) :
    ∀ (l : List TimedLine) (i : Nat), i ≤ advanceFrom elapsed l i := by
  intro l
  induction l with
  | nil =>
    intro i
    exact Nat.le_refl i
  | cons e rest ih =>
    intro i
    rw [advanceFrom]
    by_cases h : elapsed ≥ e.time
    · rw [if_pos h]
      exact Nat.le_trans (Nat.le_succ i) (ih (i + 1))
    · rw [if_neg h]

theorem advanceFrom_le (elapsed : Rat) :
    ∀ (l : List TimedLine) (i : Nat), advanceFrom elapsed l i ≤ i + l.length := by
  intro l
  induction l with
  | nil =>
    intro i
    simp [advanceFrom]
  | cons e rest ih =>
    intro i
    rw [advanceFrom]
    by_cases h : elapsed ≥ e.time
    · rw [if_pos h]
      have := ih (i + 1)
      simp only [List.length_cons]
      omega
    · rw [if_neg h]
      simp only [List.length_cons]
      omega

theorem advanceFrom_sorted (elapsed : Rat) :
    ∀ (l : List TimedLine) (i : Nat),
      l.Pairwise (fun a b => a.time ≤ b.time) →
      advanceFrom elapsed l i = i + l.countP (fun e => decide (e.time ≤ elapsed)) := by
  intro l
  induction l with
  | nil =>
    intro i _
    simp [advanceFrom]
  | cons e rest ih =>
    intro i hp
    rw [List.pairwise_cons] at hp
    rw [advanceFrom]
    by_cases h : elapsed ≥ e.time
    · rw [if_pos h, ih (i + 1) hp.2, List.countP_cons_of_pos _ _ (by simpa using h)]
      omega
    · rw [if_neg h]
      have hz : (e :: rest).countP (fun e => decide (e.time ≤ elapsed)) = 0 := by
        rw [List.countP_eq_zero]
        intro a ha
        simp only [decide_eq_true_eq]
        rcases List.mem_cons.mp ha with rfl | ha'
        · exact fun hle => h hle
        · exact fun hle => h (le_trans (hp.1 a ha') hle)
      omega

theorem countP_take_of_le (elapsed : Rat) :
    ∀ (lyrics : List TimedLine) (i : Nat),
      lyrics.Pairwise (fun a b => a.time ≤ b.time) →
      i ≤ countReached lyrics elapsed →
      (lyrics.take i).countP (fun e => decide (e.time ≤ elapsed)) = i := by
  intro lyrics
  induction lyrics with
  | nil =>
    intro i _ hle
    have h0 : i = 0 := by
      have : countReached ([] : List TimedLine) elapsed = 0 := rfl
      omega
    subst h0
    rfl
  | cons e rest ih =>
    intro i hp hle
    rw [List.pairwise_cons] at hp
    cases i with
    | zero => rfl
    | succ j =>
      have he : e.time ≤ elapsed := by
        by_contra hne
        have hzero : countReached (e :: rest) elapsed = 0 := by
          rw [countReached, List.countP_eq_zero]
          intro a ha
          simp only [decide_eq_true_eq]
          rcases List.mem_cons.mp ha with rfl | ha'
          · exact hne
          · exact fun hle2 => hne (le_trans (hp.1 a ha') hle2)
        omega
      have hcount : countReached (e :: rest) elapsed = countReached rest elapsed + 1 := by
        rw [countReached, countReached, List.countP_cons_of_pos _ _ (by simpa using he)]
      rw [List.take_succ_cons, List.countP_cons_of_pos _ _ (by simpa using he),
        ih j hp.2 (by omega)]

/-- **C1**: on a time-sorted sequence, a tick started at a cursor that is at
most the number of reached entries advances the cursor forward only, to
exactly the number of entries whose time is `≤ elapsed`; the cursor never
decreases on any tick; and on the `[0.0, 4.5, 9.0]` example at elapsed 6.0
the cursor lands on 2 and the display index resolves to 1. -/
theorem claim_C1_cursor_advance (lyrics : List TimedLine) (elapsed : Rat) (i : Nat)
    (hsorted : lyrics.Pairwise fun a b => a.time ≤ b.time)
    (hstart : i ≤ countReached lyrics elapsed) :
    i ≤ schedulerTick lyrics elapsed i ∧
    schedulerTick lyrics elapsed i = countReached lyrics elapsed ∧
    (∀ (elapsed2 : Rat) (j : Nat), j ≤ schedulerTick lyrics elapsed2 j) ∧
    (∀ elapsed2 : Rat, elapsed ≤ elapsed2 →
      countReached lyrics elapsed ≤ countReached lyrics elapsed2) ∧
    schedulerTick exampleLyrics 6 0 = 2 ∧
    displayIndex exampleLyrics (schedulerTick exampleLyrics 6 0) = some 1 := by
  refine ⟨advanceFrom_ge elapsed _ i, ?_, fun e2 j => advanceFrom_ge e2 _ j,
    fun e2 he2 => List.countP_mono_left
      (fun x _ hx => by
        simp only [decide_eq_true_eq] at hx ⊢
        exact le_trans hx he2),
    by decide, by decide⟩
  rw [schedulerTick,
    advanceFrom_sorted elapsed _ i (List.Pairwise.sublist (List.drop_sublist i lyrics) hsorted)]
  have hsplit : countReached lyrics elapsed =
      (lyrics.take i).countP (fun e => decide (e.time ≤ elapsed)) +
        (lyrics.drop i).countP (fun e => decide (e.time ≤ elapsed)) := by
    rw [countReached, ← List.countP_append, List.take_append_drop]
  rw [hsplit, countP_take_of_le elapsed lyrics i hsorted hstart]

/-- Witness for **C1**, at the example sequence, elapsed 6.0, cursor 0. -/
theorem claim_C1_witness :
    0 ≤ schedulerTick exampleLyrics 6 0 ∧
    schedulerTick exampleLyrics 6 0 = countReached exampleLyrics 6 ∧
    (∀ (elapsed2 : Rat) (j : Nat), j ≤ schedulerTick exampleLyrics elapsed2 j) ∧
    (∀ elapsed2 : Rat, (6 : Rat) ≤ elapsed2 →
      countReached exampleLyrics 6 ≤ countReached exampleLyrics elapsed2) ∧
    schedulerTick exampleLyrics 6 0 = 2 ∧
    displayIndex exampleLyrics (schedulerTick exampleLyrics 6 0) = some 1 :=
  claim_C1_cursor_advance exampleLyrics 6 0 (by decide) (by decide)

theorem displayIndex_pos (lyrics : List TimedLine) (cursor : Nat)
    (h1 : 1 ≤ cursor) (h2 : cursor ≤ lyrics.length) :
    displayIndex lyrics cursor = some ((cursor : Int) - 1) := by
  have hnc : ¬ (((cursor : Int) - 1 < 0) ∧ firstTimeZero lyrics = true) := by
    intro hc
    have h3 := hc.1
    omega
  have hd : ¬ ((cursor : Int) - 1 < 0) := by omega
  have hcl : ¬ ((lyrics.length : Int) ≤ (cursor : Int) - 1) := by omega
  simp only [displayIndex]
  rw [if_neg hnc, if_neg hd, if_neg hcl]

theorem displayIndex_zero_first_zero (lyrics : List TimedLine)
    (hfz : firstTimeZero lyrics = true) :
    displayIndex lyrics 0 = some 0 := by
  cases lyrics with
  | nil => simp [firstTimeZero] at hfz
  | cons e rest =>
    have hp : (((0 : Nat) : Int) - 1 < 0) ∧ firstTimeZero (e :: rest) = true :=
      ⟨by omega, hfz⟩
    have hd : ¬ ((0 : Int) < 0) := by omega
    have hcl : ¬ (((e :: rest).length : Int) ≤ (0 : Int)) := by
      simp only [List.length_cons]
      omega
    simp only [displayIndex]
    rw [if_pos hp, if_neg hd, if_neg hcl]

theorem displayIndex_zero_skip (lyrics : List TimedLine)
    (hfz : firstTimeZero lyrics = false) :
    displayIndex lyrics 0 = none := by
  have hnc : ¬ ((((0 : Nat) : Int) - 1 < 0) ∧ firstTimeZero lyrics = true) := by
    rw [hfz]
    intro hc
    exact absurd hc.2 (by simp)
  have hd : (((0 : Nat) : Int) - 1) < 0 := by omega
  simp only [displayIndex]
  rw [if_neg hnc, if_pos hd]

theorem displayIndex_clamp (lyrics : List TimedLine) (cursor : Nat)
    (h : lyrics.length < cursor) :
    displayIndex lyrics cursor = some ((lyrics.length : Int) - 1) := by
  have hnc : ¬ (((cursor : Int) - 1 < 0) ∧ firstTimeZero lyrics = true) := by
    intro hc
    have h3 := hc.1
    omega
  have hd : ¬ ((cursor : Int) - 1 < 0) := by omega
  have hcl : (lyrics.length : Int) ≤ (cursor : Int) - 1 := by omega
  simp only [displayIndex]
  rw [if_neg hnc, if_neg hd, if_pos hcl]

theorem displayIndex_bounds (lyrics : List TimedLine) (cursor : Nat) (d : Int)
    (hle : cursor ≤ lyrics.length) (h : displayIndex lyrics cursor = some d) :
    0 ≤ d ∧ d < (lyrics.length : Int) := by
  cases lyrics with
  | nil =>
    have h0 : cursor = 0 := by simpa using hle
    subst h0
    simp [displayIndex, firstTimeZero] at h
  | cons e rest =>
    rcases Nat.eq_zero_or_pos cursor with rfl | h1
    · cases hfz : firstTimeZero (e :: rest) with
      | true =>
        rw [displayIndex_zero_first_zero _ hfz] at h
        obtain rfl := Option.some.inj h
        refine ⟨le_refl 0, ?_⟩
        simp only [List.length_cons]
        omega
      | false =>
        rw [displayIndex_zero_skip _ hfz] at h
        exact absurd h (by simp)
    · rw [displayIndex_pos _ _ h1 hle] at h
      obtain rfl := Option.some.inj h
      constructor <;> omega

theorem schedulerTick_le (lyrics : List TimedLine) (elapsed : Rat) (i : Nat)
    (h : i ≤ lyrics.length) : schedulerTick lyrics elapsed i ≤ lyrics.length := by
  have hb := advanceFrom_le elapsed (lyrics.drop i) i
  rw [List.length_drop] at hb
  rw [schedulerTick]
  omega

/-- **C2**: the display index is `cursor - 1`; at cursor 0 it becomes 0 when
the first entry's time is 0.0 and the tick is skipped otherwise; a cursor
beyond the length is clamped to `len - 1`; any rendered display index is in
bounds; and a tick keeps the cursor within `[0, len]`. -/
theorem claim_C2_display_translation (lyrics : List TimedLine) (cursor : Nat) :
    (1 ≤ cursor → cursor ≤ lyrics.length →
      displayIndex lyrics cursor = some ((cursor : Int) - 1)) ∧
    (firstTimeZero lyrics = true → displayIndex lyrics 0 = some 0) ∧
    (firstTimeZero lyrics = false → displayIndex lyrics 0 = none) ∧
    (lyrics.length < cursor →
      displayIndex lyrics cursor = some ((lyrics.length : Int) - 1)) ∧
    (∀ d : Int, cursor ≤ lyrics.length → displayIndex lyrics cursor = some d →
      0 ≤ d ∧ d < (lyrics.length : Int)) ∧
    (∀ elapsed : Rat, cursor ≤ lyrics.length →
      schedulerTick lyrics elapsed cursor ≤ lyrics.length) :=
  ⟨fun h1 h2 => displayIndex_pos lyrics cursor h1 h2,
   displayIndex_zero_first_zero lyrics,
   displayIndex_zero_skip lyrics,
   displayIndex_clamp lyrics cursor,
   fun d hle h => displayIndex_bounds lyrics cursor d hle h,
   fun elapsed hle => schedulerTick_le lyrics elapsed cursor hle⟩

/-- Witness for **C2** at concrete sequences and cursors. -/
theorem claim_C2_witness :
    displayIndex exampleLyrics 2 = some 1 ∧
    displayIndex exampleLyrics 0 = some 0 ∧
    displayIndex [({ time := 1, original := [], highlight := none } : TimedLine)] 0 = none ∧
    displayIndex exampleLyrics 4 = some 2 ∧
    (0 ≤ (1 : Int) ∧ (1 : Int) < (exampleLyrics.length : Int)) ∧
    schedulerTick exampleLyrics 100 3 ≤ exampleLyrics.length := by
  refine ⟨?_, ?_, ?_, ?_, ?_, ?_⟩
  · simpa using (claim_C2_display_translation exampleLyrics 2).1 (by decide) (by decide)
  · exact (claim_C2_display_translation exampleLyrics 0).2.1 (by decide)
  · exact (claim_C2_display_translation
      [({ time := 1, original := [], highlight := none } : TimedLine)] 0).2.2.1 (by decide)
  · simpa using (claim_C2_display_translation exampleLyrics 4).2.2.2.1 (by decide)
  · exact (claim_C2_display_translation exampleLyrics 2).2.2.2.2.1 1 (by decide) (by decide)
  · exact (claim_C2_display_translation exampleLyrics 3).2.2.2.2.2 100 (by decide)

/-- **C6**: on every tick that reaches the sleep step, the computed duration
is `max(0.01, next_target_time - elapsed)` with `next_target_time` the time
of the entry at the raw cursor when one remains and the total duration
otherwise, and it is never below the 0.01 s floor. -/
theorem claim_C6_sleep (lyrics : List TimedLine) (cursor : Nat)
    (totalDuration elapsed : Rat) :
    ((h : cursor < lyrics.length) →
      sleepDuration lyrics cursor totalDuration elapsed =
        max (mkRat 1 100) ((lyrics.get ⟨cursor, h⟩).time - elapsed)) ∧
    (lyrics.length ≤ cursor →
      sleepDuration lyrics cursor totalDuration elapsed =
        max (mkRat 1 100) (totalDuration - elapsed)) ∧
    mkRat 1 100 ≤ sleepDuration lyrics cursor totalDuration elapsed := by
  refine ⟨?_, ?_, ?_⟩
  · intro h
    simp only [sleepDuration, dif_pos h]
  · intro h
    simp only [sleepDuration, dif_neg (Nat.not_lt.mpr h)]
  · exact le_max_left _ _

/-- Witness for **C6** at the example sequence with duration 25, elapsed 6,
at an in-range cursor and at the past-the-end cursor. -/
theorem claim_C6_sleep_witness :
    sleepDuration exampleLyrics 3 25 6 = max (mkRat 1 100) (25 - 6) ∧
    sleepDuration exampleLyrics 1 25 6 =
      max (mkRat 1 100) ((exampleLyrics.get ⟨1, by decide⟩).time - 6) ∧
    mkRat 1 100 ≤ sleepDuration exampleLyrics 3 25 6 :=
  ⟨(claim_C6_sleep exampleLyrics 3 25 6).2.1 (by decide),
   (claim_C6_sleep exampleLyrics 1 25 6).1 (by decide),
   (claim_C6_sleep exampleLyrics 3 25 6).2.2⟩

/-! ## Lemmas about the renderer -/

theorem foldl_preserve {α : Type} (f : RenderState → α → RenderState)
    (P : RenderState → Prop) (hf : ∀ st a, P st → P (f st a)) :
    ∀ (l : List α) (st : RenderState), P st → P (l.foldl f st) := by
  intro l
  induction l with
  | nil =>
    intro st h
    exact h
  | cons a l ih =>
    intro st h
    exact ih (f st a) (hf st a h)

theorem foldl_emitHeaderPiece_row (textHeight : Nat) :
    ∀ (pieces : List (List Char)) (st : RenderState), st.row ≤ textHeight →
      (pieces.foldl (emitHeaderPiece textHeight) st).row =
        min (st.row + pieces.length) textHeight := by
  intro pieces
  induction pieces with
  | nil =>
    intro st h
    simp only [List.foldl_nil, List.length_nil]
    omega
  | cons p ps ih =>
    intro st h
    rw [List.foldl_cons, emitHeaderPiece]
    by_cases hlt : st.row < textHeight
    · rw [if_pos hlt, ih _ (by simpa using hlt)]
      simp only [List.length_cons]
      omega
    · rw [if_neg hlt, ih st h]
      simp only [List.length_cons]
      omega

theorem foldl_emitLyricPiece_row (textHeight : Nat) :
    ∀ (pieces : List (List Char)) (st : RenderState),
      (pieces.foldl (emitLyricPiece textHeight) st).row = st.row + pieces.length := by
  intro pieces
  induction pieces with
  | nil =>
    intro st
    simp
  | cons p ps ih =>
    intro st
    rw [List.foldl_cons, ih (emitLyricPiece textHeight st p)]
    simp only [emitLyricPiece, List.length_cons]
    omega

theorem emitLyricPiece_budget (textHeight : Nat) (st : RenderState) (p : List Char) :
    (∃ tail, (emitLyricPiece textHeight st p).painted = st.painted ++ tail) ∧
    (emitLyricPiece textHeight st p).painted.length +
        (textHeight - (emitLyricPiece textHeight st p).row) ≤
      st.painted.length + (textHeight - st.row) := by
  by_cases h : st.row < textHeight
  · refine ⟨⟨[(st.row, p)], by simp [emitLyricPiece, h]⟩, ?_⟩
    simp [emitLyricPiece, h]
    omega
  · refine ⟨⟨[], by simp [emitLyricPiece, h]⟩, ?_⟩
    simp [emitLyricPiece, h]
    omega

theorem foldl_emitLyricPiece_budget (textHeight : Nat) :
    ∀ (pieces : List (List Char)) (st : RenderState),
      (∃ tail, (pieces.foldl (emitLyricPiece textHeight) st).painted = st.painted ++ tail) ∧
      (pieces.foldl (emitLyricPiece textHeight) st).painted.length +
          (textHeight - (pieces.foldl (emitLyricPiece textHeight) st).row) ≤
        st.painted.length + (textHeight - st.row) := by
  intro pieces
  induction pieces with
  | nil =>
    intro st
    exact ⟨⟨[], by simp⟩, by simp⟩
  | cons p ps ih =>
    intro st
    rw [List.foldl_cons]
    obtain ⟨⟨tail1, ht1⟩, hb1⟩ := emitLyricPiece_budget textHeight st p
    obtain ⟨⟨tail2, ht2⟩, hb2⟩ := ih (emitLyricPiece textHeight st p)
    exact ⟨⟨tail1 ++ tail2, by rw [ht2, ht1, List.append_assoc]⟩, le_trans hb2 hb1⟩

theorem emitLyricLine_budget (textHeight maxWidth : Nat) (lyrics : List TimedLine)
    (st : RenderState) (i : Int) :
    (∃ tail, (emitLyricLine textHeight maxWidth lyrics st i).painted = st.painted ++ tail) ∧
    (emitLyricLine textHeight maxWidth lyrics st i).painted.length +
        (textHeight - (emitLyricLine textHeight maxWidth lyrics st i).row) ≤
      st.painted.length + (textHeight - st.row) := by
  rw [emitLyricLine]
  by_cases h : 0 ≤ i ∧ i < (lyrics.length : Int)
  · rw [dif_pos h]
    exact foldl_emitLyricPiece_budget textHeight _ st
  · rw [dif_neg h]
    refine ⟨⟨[], by simp⟩, ?_⟩
    show st.painted.length + (textHeight - (st.row + 1)) ≤
      st.painted.length + (textHeight - st.row)
    omega

theorem foldl_emitLyricLine_budget (textHeight maxWidth : Nat) (lyrics : List TimedLine) :
    ∀ (indices : List Int) (st : RenderState),
      (∃ tail, (indices.foldl (emitLyricLine textHeight maxWidth lyrics) st).painted =
        st.painted ++ tail) ∧
      (indices.foldl (emitLyricLine textHeight maxWidth lyrics) st).painted.length +
          (textHeight -
            (indices.foldl (emitLyricLine textHeight maxWidth lyrics) st).row) ≤
        st.painted.length + (textHeight - st.row) := by
  intro indices
  induction indices with
  | nil =>
    intro st
    exact ⟨⟨[], by simp⟩, by simp⟩
  | cons i il ih =>
    intro st
    rw [List.foldl_cons]
    obtain ⟨⟨tail1, ht1⟩, hb1⟩ := emitLyricLine_budget textHeight maxWidth lyrics st i
    obtain ⟨⟨tail2, ht2⟩, hb2⟩ := ih (emitLyricLine textHeight maxWidth lyrics st i)
    exact ⟨⟨tail1 ++ tail2, by rw [ht2, ht1, List.append_assoc]⟩, le_trans hb2 hb1⟩

theorem emitHeaderPiece_painted_lt (textHeight : Nat) (st : RenderState) (p : List Char)
    (h : ∀ q ∈ st.painted, q.1 < textHeight) :
    ∀ q ∈ (emitHeaderPiece textHeight st p).painted, q.1 < textHeight := by
  rw [emitHeaderPiece]
  by_cases hlt : st.row < textHeight
  · rw [if_pos hlt]
    intro q hq
    rcases List.mem_append.mp hq with h1 | h1
    · exact h q h1
    · simp only [List.mem_singleton] at h1
      subst h1
      exact hlt
  · rw [if_neg hlt]
    exact h

theorem emitLyricPiece_painted_lt (textHeight : Nat) (st : RenderState) (p : List Char)
    (h : ∀ q ∈ st.painted, q.1 < textHeight) :
    ∀ q ∈ (emitLyricPiece textHeight st p).painted, q.1 < textHeight := by
  rw [emitLyricPiece]
  by_cases hlt : st.row < textHeight
  · intro q hq
    simp only [if_pos hlt] at hq
    rcases List.mem_append.mp hq with h1 | h1
    · exact h q h1
    · simp only [List.mem_singleton] at h1
      subst h1
      exact hlt
  · intro q hq
    simp only [if_neg hlt] at hq
    exact h q hq

theorem display_content_painted_lt (textHeight maxWidth : Nat) (idx : Int)
    (lyrics : List TimedLine) (info : ContentInfo) :
    ∀ q ∈ (display_content textHeight maxWidth idx lyrics info).painted,
      q.1 < textHeight := by
  have hP : ∀ st : RenderState, (∀ q ∈ st.painted, q.1 < textHeight) →
      ∀ q ∈ (headerPhase textHeight maxWidth info st).painted, q.1 < textHeight := by
    intro st h
    refine foldl_preserve _ _ (fun st' a h' => emitHeaderPiece_painted_lt _ st' a h') _ _ ?_
    exact foldl_preserve _ _ (fun st' a h' => emitHeaderPiece_painted_lt _ st' a h') _ st h
  have hsep : ∀ st : RenderState, (∀ q ∈ st.painted, q.1 < textHeight) →
      ∀ q ∈ (blankSeparator textHeight st).painted, q.1 < textHeight := by
    intro st h
    rw [blankSeparator]
    by_cases hlt : st.row < textHeight
    · rw [if_pos hlt]
      exact h
    · rw [if_neg hlt]
      exact h
  have hline : ∀ (st : RenderState) (i : Int), (∀ q ∈ st.painted, q.1 < textHeight) →
      ∀ q ∈ (emitLyricLine textHeight maxWidth lyrics st i).painted, q.1 < textHeight := by
    intro st i h
    rw [emitLyricLine]
    by_cases hv : 0 ≤ i ∧ i < (lyrics.length : Int)
    · rw [dif_pos hv]
      exact foldl_preserve _ _ (fun st' a h' => emitLyricPiece_painted_lt _ st' a h') _ st h
    · rw [dif_neg hv]
      exact h
  refine foldl_preserve _ _ (fun st' a h' => hline st' a h') _ _ ?_
  exact hsep _ (hP _ (by simp))

/-- **C7** counterexample: with `text_height = 1` and two one-piece header
lines, the code leaves the row cursor at 1 after rendering (the second
header piece neither paints nor increments), whereas incrementing once per
wrapped piece regardless of painting would leave it at 2. -/
theorem claim_C7_counterexample :
    (display_content 1 60 0 [] ⟨[['a'], ['b']], []⟩).row = 1 ∧
    (display_content 1 60 0 [] ⟨[['a'], ['b']], []⟩).row ≠ 2 := by
  decide

/-- **C7** (amended): lyric pieces increment the shared row cursor once per
wrapped piece whether painted or not, but header (title/artist) pieces
increment it only while it is below `text_height`; no piece is ever painted
at a row at or beyond `text_height`; and in the spec's scenario — height 5
with the header phase ending at row 3 — at most 2 lyric rows are painted
regardless of the sequence. -/
theorem claim_C7_row_accounting :
    (∀ (textHeight : Nat) (st : RenderState) (pieces : List (List Char)),
      st.row ≤ textHeight →
      (pieces.foldl (emitHeaderPiece textHeight) st).row =
        min (st.row + pieces.length) textHeight) ∧
    (∀ (textHeight : Nat) (st : RenderState) (pieces : List (List Char)),
      (pieces.foldl (emitLyricPiece textHeight) st).row = st.row + pieces.length) ∧
    (∀ (textHeight maxWidth : Nat) (idx : Int) (lyrics : List TimedLine)
      (info : ContentInfo),
      ∀ q ∈ (display_content textHeight maxWidth idx lyrics info).painted,
        q.1 < textHeight) ∧
    (∀ (idx : Int) (lyrics : List TimedLine),
      ∃ tail, (display_content 5 60 idx lyrics ⟨[['t']], [['a']]⟩).painted =
          [(0, ['t']), (1, ['a'])] ++ tail ∧ tail.length ≤ 2) := by
  refine ⟨fun H st pieces h => foldl_emitHeaderPiece_row H pieces st h,
    fun H st pieces => foldl_emitLyricPiece_row H pieces st,
    fun H mw idx lyrics info => display_content_painted_lt H mw idx lyrics info,
    ?_⟩
  intro idx lyrics
  have hst : blankSeparator 5 (headerPhase 5 60 ⟨[['t']], [['a']]⟩ ⟨0, []⟩) =
      ⟨3, [(0, ['t']), (1, ['a'])]⟩ := by decide
  have hmain := foldl_emitLyricLine_budget 5 60 lyrics
    (lyricWindowIndices 5 ⟨3, [(0, ['t']), (1, ['a'])]⟩ idx)
    ⟨3, [(0, ['t']), (1, ['a'])]⟩
  obtain ⟨⟨tail, ht⟩, hb⟩ := hmain
  refine ⟨tail, ?_, ?_⟩
  · show ((lyricWindowIndices 5 (blankSeparator 5 (headerPhase 5 60 ⟨[['t']], [['a']]⟩
        ⟨0, []⟩)) idx).foldl (emitLyricLine 5 60 lyrics)
        (blankSeparator 5 (headerPhase 5 60 ⟨[['t']], [['a']]⟩ ⟨0, []⟩))).painted =
      [(0, ['t']), (1, ['a'])] ++ tail
    rw [hst]
    exact ht
  · have hlen := congrArg List.length ht
    rw [List.length_append] at hlen
    have h2 : ((⟨3, [(0, ['t']), (1, ['a'])]⟩ : RenderState)).painted.length = 2 := rfl
    rw [h2] at hlen
    have h3 : (5 - ((⟨3, [(0, ['t']), (1, ['a'])]⟩ : RenderState)).row) = 2 := rfl
    rw [h2, h3] at hb
    omega

/-- Witness for **C7**: the header-phase row formula evaluated at height 5,
starting row 0, one piece. -/
theorem claim_C7_witness :
    (([['x']] : List (List Char)).foldl (emitHeaderPiece 5) ⟨0, []⟩).row =
      min ((⟨0, []⟩ : RenderState).row + ([['x']] : List (List Char)).length) 5 :=
  claim_C7_row_accounting.1 5 ⟨0, []⟩ [['x']] (by decide)

/-! ## Lemmas about the loader -/

theorem convertData_eq_normalizeSpec :
    ∀ (raw : List RawItem),
      (∀ item ∈ raw, ¬ (item.words.getD []).all Char.isWhitespace = true →
        (item.startTimeMs.bind pyInt).isSome = true ∨ item.startTimeMs = none) →
      convertData raw = some (normalizeSpec raw) := by
  intro raw
  induction raw with
  | nil =>
    intro _
    rfl
  | cons item rest ih =>
    intro h
    have hrest := ih (fun x hx => h x (by simp [hx]))
    by_cases hws : (item.words.getD []).all Char.isWhitespace = true
    · have hci : convertItem item = some none := by
        simp only [convertItem]
        rw [if_pos hws]
      rw [convertData, hci]
      show convertData rest = some (normalizeSpec (item :: rest))
      rw [normalizeSpec, if_pos hws, hrest]
    · cases hst : item.startTimeMs with
      | none =>
        have hci : convertItem item =
            some (some ⟨mkRat 0 1000, item.words.getD [], none⟩) := by
          simp only [convertItem]
          rw [if_neg hws, hst]
        rw [convertData, hci]
        show (convertData rest).map
            (fun l => (⟨mkRat 0 1000, item.words.getD [], none⟩ : TimedLine) :: l) =
          some (normalizeSpec (item :: rest))
        rw [hrest, normalizeSpec, if_neg hws, hst]
        rfl
      | some s =>
        rcases h item (by simp) hws with hsome | hnone
        · cases hp : pyInt s with
          | none =>
            rw [hst,
              show ((some s : Option (List Char)).bind pyInt) = pyInt s from rfl, hp] at hsome
            simp at hsome
          | some ms =>
            have hci : convertItem item =
                some (some ⟨mkRat ms 1000, item.words.getD [], none⟩) := by
              simp only [convertItem, hst, hp]
              rw [if_neg hws]
            rw [convertData, hci]
            show (convertData rest).map
                (fun l => (⟨mkRat ms 1000, item.words.getD [], none⟩ : TimedLine) :: l) =
              some (normalizeSpec (item :: rest))
            rw [hrest, normalizeSpec, if_neg hws, hst]
            rw [show ((some s : Option (List Char)).bind pyInt) = pyInt s from rfl, hp]
            rfl
        · rw [hst] at hnone
          exact absurd hnone (by simp)

/-- **C8**: the loader's normalization drops every all-whitespace entry,
divides `startTimeMs` milliseconds by 1000 to obtain `time`
(`"7430"` gives 7.43), copies `words` verbatim and keeps the input order —
that is, `_convert_data` computes the filter-map `normalizeSpec` whenever no
entry raises; concretely on a `"7430"` entry and on an all-blank entry. -/
theorem claim_C8_normalization (raw : List RawItem)
    (h : ∀ item ∈ raw, ¬ (item.words.getD []).all Char.isWhitespace = true →
      (item.startTimeMs.bind pyInt).isSome = true ∨ item.startTimeMs = none) :
    convertData raw = some (normalizeSpec raw) ∧
    convertData [⟨some "7430".toList, some "x".toList⟩] =
      some [⟨mkRat 743 100, "x".toList, none⟩] ∧
    convertData [⟨some "100".toList, some "   ".toList⟩] = some [] :=
  ⟨convertData_eq_normalizeSpec raw h, by decide, by decide⟩

/-- Witness for **C8** at a two-entry raw list. -/
theorem claim_C8_witness :
    convertData [(⟨some "7430".toList, some "x".toList⟩ : RawItem),
        ⟨none, some "y".toList⟩] =
      some (normalizeSpec [(⟨some "7430".toList, some "x".toList⟩ : RawItem),
        ⟨none, some "y".toList⟩]) :=
  (claim_C8_normalization _ (by decide)).1

/-- **C9** counterexample: a readable file with well-formed JSON but one
malformed entry (non-numeric `startTimeMs`) makes `load` raise an uncaught
`ValueError` instead of returning `False`. -/
theorem claim_C9_counterexample :
    load (.legacyArray [⟨some "abc".toList, some "x".toList⟩]) = .raises ∧
    load (.legacyArray [⟨some "abc".toList, some "x".toList⟩]) ≠ .returns false := by
  decide

/-- **C9** (amended): a missing source file or malformed JSON is caught and
reported as the boolean return `False`; but a malformed entry raises inside
`_convert_data` and the exception escapes `load` to the caller. -/
theorem claim_C9_load_failures :
    load .missingFile = .returns false ∧
    load .malformedJson = .returns false ∧
    (∀ raw, convertData raw = none → load (.legacyArray raw) = .raises) ∧
    (∀ title artist raw, convertData raw = none →
      load (.extended title artist raw) = .raises) ∧
    (∀ raw l, convertData raw = some l → load (.legacyArray raw) = .returns true) := by
  refine ⟨rfl, rfl, ?_, ?_, ?_⟩
  · intro raw h
    simp [load, h]
  · intro t a raw h
    simp [load, h]
  · intro raw l h
    simp [load, h]

/-- Witness for **C9**: the raising case on a malformed entry and the
success case on an empty array. -/
theorem claim_C9_witness :
    load (.legacyArray [⟨some "zz".toList, some "y".toList⟩]) = .raises ∧
    load (.legacyArray []) = .returns true :=
  ⟨claim_C9_load_failures.2.2.1 _ (by decide),
   claim_C9_load_failures.2.2.2.2 [] [] (by decide)⟩

theorem convertItem_highlight (item : RawItem) (e : TimedLine)
    (h : convertItem item = some (some e)) : e.highlight = none := by
  simp only [convertItem] at h
  by_cases hws : (item.words.getD []).all Char.isWhitespace = true
  · rw [if_pos hws] at h
    exact absurd h (by simp)
  · rw [if_neg hws] at h
    cases hst : item.startTimeMs with
    | none =>
      rw [hst] at h
      obtain rfl := Option.some.inj (Option.some.inj h)
      rfl
    | some s =>
      simp only [hst] at h
      cases hp : pyInt s with
      | none =>
        simp [hp] at h
      | some ms =>
        simp only [hp] at h
        obtain rfl := Option.some.inj (Option.some.inj h)
        rfl

/-- **C10**: every entry the loader produces carries no `highlight` key, so
the renderer's `get("highlight", False)` lookup yields `false` on every such
line and the active-line highlight styling is selected exactly by the
`time == 0.0` test. -/
theorem claim_C10_no_highlight (raw : List RawItem) (result : List TimedLine)
    (h : convertData raw = some result) :
    ∀ e ∈ result, e.highlight = none ∧ isHighlighted e = false ∧
      activeUsesHighlightColor e = decide (e.time = 0) := by
  induction raw generalizing result with
  | nil =>
    rw [convertData] at h
    obtain rfl := Option.some.inj h
    intro e he
    exact absurd he (by simp)
  | cons item rest ih =>
    rw [convertData] at h
    cases hci : convertItem item with
    | none =>
      rw [hci] at h
      exact absurd h (by simp)
    | some o =>
      cases o with
      | none =>
        rw [hci] at h
        exact ih result h
      | some e0 =>
        rw [hci] at h
        cases hcr : convertData rest with
        | none =>
          rw [hcr] at h
          exact absurd h (by simp)
        | some l =>
          rw [hcr] at h
          simp only [Option.map_some'] at h
          obtain rfl := Option.some.inj h
          intro e he
          rcases List.mem_cons.mp he with rfl | he'
          · have hnone : e.highlight = none := convertItem_highlight item e hci
            refine ⟨hnone, ?_, ?_⟩
            · simp [isHighlighted, hnone]
            · simp [activeUsesHighlightColor, isHighlighted, hnone]
          · exact ih l hcr e he'

/-- Witness for **C10** at a one-entry raw list and its produced entry. -/
theorem claim_C10_witness :
    ({ time := mkRat 7430 1000, original := "x".toList, highlight := none } :
        TimedLine).highlight = none ∧
    isHighlighted ⟨mkRat 7430 1000, "x".toList, none⟩ = false ∧
    activeUsesHighlightColor ⟨mkRat 7430 1000, "x".toList, none⟩ =
      decide ((⟨mkRat 7430 1000, "x".toList, none⟩ : TimedLine).time = 0) :=
  claim_C10_no_highlight [⟨some "7430".toList, some "x".toList⟩]
    [⟨mkRat 7430 1000, "x".toList, none⟩] (by decide)
    ⟨mkRat 7430 1000, "x".toList, none⟩ (by decide)

end Lyrics
